import Mathlib

/-
  Shallow embedding of batman-adv's multicast listener announcement (MLA)
  engine, src/multicast_mla.c: the address classifier, the local and
  bridge collectors, and the translation-table (TT) reconciler
  (batadv_mcast_mla_tt_clean / _tt_add / _tt_update).

  Modelling conventions:
  * A 6-byte MAC address is a structure of six Nat-valued octets.
  * Kernel linked lists become Lean lists; `list_add` (which inserts at the
    head) becomes cons, `list_move_tail` becomes appending at the end.
  * `kmalloc` is driven by an explicit allocation oracle, a `List Bool`
    consumed one entry per allocation; an exhausted oracle means success,
    a `false` entry means allocation failure (-ENOMEM = -12).
  * TT side effects (batadv_tt_local_add / batadv_tt_local_remove) are
    recorded as an emitted list of `TTOp` events, in issue order.
  * `net_device` is modelled by the fields this file reads: the hardware
    multicast list, the optional inet6/in_device group lists, and (passed
    alongside, since `dev->master`'s own master is never consulted here)
    an optional master device.
-/

/-- A 6-byte link-layer (MAC) address; octets are Nat-valued bytes. -/
structure Mac where
  b0 : Nat
  b1 : Nat
  b2 : Nat
  b3 : Nat
  b4 : Nat
  b5 : Nat
deriving DecidableEq, Repr

/-- The all-zero MAC address (result of `memset(dst, 0, ETH_ALEN)`). -/
def zeroMac : Mac := ⟨0, 0, 0, 0, 0, 0⟩

/-- An IPv6 address as its 16-byte `s6_addr` array (modelled as a list;
the code reads byte 1 for the scope flags and bytes 12..15 for the
MAC mapping). -/
structure In6Addr where
  s6_addr : List Nat
deriving DecidableEq, Repr

/-- Modelled from the kernel macro `IPV6_ADDR_MC_FLAG_TRANSIENT`:
`s6_addr[1] & 0x10`, the T ("transient", non-well-known) flag. -/
def IPV6_ADDR_MC_FLAG_TRANSIENT (a : In6Addr) : Bool :=
  (a.s6_addr.getD 1 0) &&& 0x10 != 0

/-- Modelled from the kernel helper `ipv6_eth_mc_map` (RFC 2464):
33:33 followed by the last four bytes of the IPv6 address. -/
def ipv6_eth_mc_map (a : In6Addr) : Mac :=
  { b0 := 0x33, b1 := 0x33,
    b2 := a.s6_addr.getD 12 0, b3 := a.s6_addr.getD 13 0,
    b4 := a.s6_addr.getD 14 0, b5 := a.s6_addr.getD 15 0 }

/-- Modelled from the kernel helper `ip_eth_mc_map` (RFC 1112):
01:00:5e followed by the low 23 bits of the (host-order) IPv4 address. -/
def ip_eth_mc_map (a : Nat) : Mac :=
  { b0 := 0x01, b1 := 0x00, b2 := 0x5e,
    b3 := (a >>> 16) &&& 0x7f, b4 := (a >>> 8) &&& 0xff, b5 := a &&& 0xff }

/-- Modelled from the kernel helper `ipv4_is_local_multicast`:
membership in 224.0.0.0/24 (link-local scope). -/
def ipv4_is_local_multicast (a : Nat) : Bool :=
  a &&& 0xffffff00 == 0xe0000000

/-- The `inet6_dev` portion read by this file: the `mc_list` of joined
IPv6 multicast groups (`ifmcaddr6::mca_addr`). -/
structure In6Dev where
  mc_list : List In6Addr
deriving DecidableEq, Repr

/-- The `in_device` portion read by this file: the list of joined
IPv4 multicast groups (`ip_mc_list::multiaddr`, host order). -/
structure InDev where
  mc_list : List Nat
deriving DecidableEq, Repr

/-- The `net_device` fields src/multicast_mla.c reads: the hardware
multicast membership list (`netdev_for_each_mc_addr`) and the optional
IPv6/IPv4 group state (`__in6_dev_get` / `__in_dev_get_rcu` may be NULL). -/
structure NetDevice where
  mc : List Mac
  in6_dev : Option In6Dev
  in_dev : Option InDev
deriving DecidableEq, Repr

/-- The joined IPv6 multicast groups of a device (empty when it has no
`inet6_dev`). -/
def NetDevice.ip6Groups (d : NetDevice) : List In6Addr :=
  match d.in6_dev with
  | none => []
  | some idev => idev.mc_list

/-- The joined IPv4 multicast groups of a device (empty when it has no
`in_device`). -/
def NetDevice.ip4Groups (d : NetDevice) : List Nat :=
  match d.in_dev with
  | none => []
  | some idev => idev.mc_list

/-- batadv_mcast_mla_has_transient_ipv6: true iff the device has a joined
IPv6 multicast group whose RFC 2464 MAC mapping equals `addr` and whose
address carries the transient flag. -/
def batadv_mcast_mla_has_transient_ipv6 (addr : Mac) (dev : NetDevice) : Bool :=
  match dev.in6_dev with
  | none => false
  | some idev =>
    idev.mc_list.any fun mc =>
      decide (ipv6_eth_mc_map mc = addr) && IPV6_ADDR_MC_FLAG_TRANSIENT mc

/-- batadv_mcast_mla_has_non_ll_ipv4: true iff the device has a joined
IPv4 multicast group whose RFC 1112 MAC mapping equals `addr` and whose
address is not link-local (not in 224.0.0.0/24). -/
def batadv_mcast_mla_has_non_ll_ipv4 (addr : Mac) (dev : NetDevice) : Bool :=
  match dev.in_dev with
  | none => false
  | some idev =>
    idev.mc_list.any fun im =>
      decide (ip_eth_mc_map im = addr) && !ipv4_is_local_multicast im

/-- batadv_mcast_mla_has_unspecial_addr: dispatch on the MAC form —
33:33:... goes to the transient-IPv6 check, 01:00:5e:... to the
non-link-local-IPv4 check, everything else is rejected. -/
def batadv_mcast_mla_has_unspecial_addr (addr : Mac) (dev : NetDevice) : Bool :=
  if addr.b0 == 0x33 && addr.b1 == 0x33 then
    batadv_mcast_mla_has_transient_ipv6 addr dev
  else if addr.b0 == 0x01 && addr.b1 == 0x00 && addr.b2 == 0x5e then
    batadv_mcast_mla_has_non_ll_ipv4 addr dev
  else
    false

/-- BATADV_MLA_MAX = UINT8_MAX. -/
def BATADV_MLA_MAX : Nat := 255

/-- batadv_mcast_mla_len: total size of `num_mla` announcements
(ETH_ALEN = 6 bytes each). -/
def batadv_mcast_mla_len (num_mla : Nat) : Nat :=
  num_mla * 6

/-- A bridge snooping database entry (`struct br_ip`): protocol family
plus the address union (only the member matching `proto` is read). -/
structure BrIp where
  proto : Nat
  ip4 : Nat
  ip6 : In6Addr
deriving DecidableEq, Repr

/-- ETH_P_IP. -/
def ETH_P_IP : Nat := 0x0800

/-- ETH_P_IPV6. -/
def ETH_P_IPV6 : Nat := 0x86DD

/-- batadv_mcast_mla_br_addr_cpy: convert a bridge IP entry to its
multicast MAC form; unrecognized protocol families become the all-zero
address (`memset(dst, 0, ETH_ALEN)`). -/
def batadv_mcast_mla_br_addr_cpy (src : BrIp) : Mac :=
  if src.proto == ETH_P_IP then
    { b0 := 0x01, b1 := 0x00, b2 := 0x5e,
      b3 := (src.ip4 >>> 16) &&& 0x7f,
      b4 := (src.ip4 >>> 8) &&& 0xff,
      b5 := src.ip4 &&& 0xff }
  else if src.proto == ETH_P_IPV6 then
    { b0 := 0x33, b1 := 0x33,
      b2 := src.ip6.s6_addr.getD 12 0, b3 := src.ip6.s6_addr.getD 13 0,
      b4 := src.ip6.s6_addr.getD 14 0, b5 := src.ip6.s6_addr.getD 15 0 }
  else
    zeroMac

/-- batadv_mcast_mla_is_duplicate: membership of `mcast_addr` in the
list, by exact 6-byte comparison. -/
def batadv_mcast_mla_is_duplicate (mcast_addr : Mac) (mcast_list : List Mac) : Bool :=
  mcast_list.any fun e => decide (e = mcast_addr)

/-- The allocation oracle: one `Bool` consumed per `kmalloc`; an
exhausted oracle means every further allocation succeeds. -/
def kmalloc : List Bool → Bool × List Bool
  | [] => (true, [])
  | b :: rest => (b, rest)

/-- Loop body of batadv_mcast_mla_local_collect over the device's
hardware multicast list: capacity check (warn and stop), classifier
filter, allocation (failure breaks with -ENOMEM, modelled as `none`),
then `list_add` (cons) onto the caller's list. -/
def localCollectGo (dev : NetDevice) (src : List Mac)
    (num_mla num_mla_max : Nat) (mcast_list : List Mac) (alloc : List Bool) :
    Option Nat × List Mac × List Bool :=
  match src with
  | [] => (some num_mla, mcast_list, alloc)
  | a :: rest =>
    if num_mla_max ≤ num_mla then
      (some num_mla, mcast_list, alloc)
    else if !batadv_mcast_mla_has_unspecial_addr a dev then
      localCollectGo dev rest num_mla num_mla_max mcast_list alloc
    else
      match kmalloc alloc with
      | (false, alloc') => (none, mcast_list, alloc')
      | (true, alloc') =>
        localCollectGo dev rest (num_mla + 1) num_mla_max (a :: mcast_list) alloc'

/-- batadv_mcast_mla_local_collect: resolve the effective device (the
master, e.g. a bridge, if present), collect up to `num_mla_max`
classifier-approved addresses into `mcast_list`; returns
`ret < 0 ? ret : num_mla` together with the caller-owned list and the
remaining oracle. -/
def batadv_mcast_mla_local_collect (dev : NetDevice) (master : Option NetDevice)
    (mcast_list : List Mac) (num_mla_max : Nat) (alloc : List Bool) :
    Int × List Mac × List Bool :=
  match localCollectGo (master.getD dev) (master.getD dev).mc 0 num_mla_max
      mcast_list alloc with
  | (none, l, a) => (-12, l, a)
  | (some n, l, a) => (Int.ofNat n, l, a)

/-- Loop body of batadv_mcast_mla_bridge_collect over the fetched bridge
snooping entries: capacity check, IP-to-MAC conversion, duplicate check
against the caller's list, allocation, then `list_add` (cons). -/
def bridgeCollectGo (br : List BrIp)
    (num_mla num_mla_max : Nat) (mcast_list : List Mac) (alloc : List Bool) :
    Option Nat × List Mac × List Bool :=
  match br with
  | [] => (some num_mla, mcast_list, alloc)
  | e :: rest =>
    if num_mla_max ≤ num_mla then
      (some num_mla, mcast_list, alloc)
    else
      if batadv_mcast_mla_is_duplicate (batadv_mcast_mla_br_addr_cpy e) mcast_list then
        bridgeCollectGo rest num_mla num_mla_max mcast_list alloc
      else
        match kmalloc alloc with
        | (false, alloc') => (none, mcast_list, alloc')
        | (true, alloc') =>
          bridgeCollectGo rest (num_mla + 1) num_mla_max
            (batadv_mcast_mla_br_addr_cpy e :: mcast_list) alloc'

/-- batadv_mcast_mla_bridge_collect: add up to `num_mla_max` snooped,
non-duplicate addresses to `mcast_list` from the fetched bridge list
(which is always freed afterwards); returns `ret < 0 ? ret : num_mla`
with the caller-owned list and the remaining oracle. -/
def batadv_mcast_mla_bridge_collect (br : List BrIp) (mcast_list : List Mac)
    (num_mla_max : Nat) (alloc : List Bool) :
    Int × List Mac × List Bool :=
  match bridgeCollectGo br 0 num_mla_max mcast_list alloc with
  | (none, l, a) => (-12, l, a)
  | (some n, l, a) => (Int.ofNat n, l, a)

/-- A translation-table side effect issued by the reconciler. -/
inductive TTOp where
  | add (addr : Mac)
  | remove (addr : Mac)
deriving DecidableEq, Repr

/-- batadv_mcast_mla_tt_clean: walk `bat_priv->mcast.mla_list`; every
entry with no duplicate in `mcast_list` gets a TT remove and is dropped.
Returns the surviving list and the emitted removals in issue order. -/
def batadv_mcast_mla_tt_clean (mla_list mcast_list : List Mac) :
    List Mac × List TTOp :=
  match mla_list with
  | [] => ([], [])
  | e :: rest =>
    match batadv_mcast_mla_tt_clean rest mcast_list with
    | (l, ops) =>
      if batadv_mcast_mla_is_duplicate e mcast_list then
        (e :: l, ops)
      else
        (l, TTOp.remove e :: ops)

/-- batadv_mcast_mla_tt_add: walk `mcast_list`; every entry with no
duplicate in `mla_list` gets a TT add and is moved to the tail of
`mla_list` (duplicates stay behind in `mcast_list`). Returns the new
`mla_list`, the leftover `mcast_list`, and the emitted adds. -/
def batadv_mcast_mla_tt_add (mla_list mcast_list : List Mac) :
    List Mac × List Mac × List TTOp :=
  match mcast_list with
  | [] => (mla_list, [], [])
  | e :: rest =>
    if batadv_mcast_mla_is_duplicate e mla_list then
      match batadv_mcast_mla_tt_add mla_list rest with
      | (m, r, ops) => (m, e :: r, ops)
    else
      match batadv_mcast_mla_tt_add (mla_list ++ [e]) rest with
      | (m, r, ops) => (m, r, TTOp.add e :: ops)

/-- The reconciliation performed at the `update:` label of
batadv_mcast_mla_tt_update: tt_clean fully, then tt_add. Returns the
new announced list, the leftover candidate entries (freed by the
caller), and all TT operations in issue order (removals first). -/
def batadv_mcast_reconcile (mla_list mcast_list : List Mac) :
    List Mac × List Mac × List TTOp :=
  match batadv_mcast_mla_tt_clean mla_list mcast_list with
  | (mla1, ops1) =>
    match batadv_mcast_mla_tt_add mla1 mcast_list with
    | (mla2, rest, ops2) => (mla2, rest, ops1 ++ ops2)

/-- The per-node state this file owns: `bat_priv->mcast.mla_list` (the
announced set) and the `mcast_group_awareness` switch. -/
structure BatPriv where
  mla_list : List Mac
  mcast_group_awareness : Bool
deriving DecidableEq, Repr

/-- batadv_mcast_mla_tt_update, one reconciliation cycle: abort when no
primary interface is selected; with multicast optimization disabled,
reconcile against an empty candidate list; otherwise run the local and
bridge collectors (the bridge budget is BATADV_MLA_MAX minus the local
count) and abort, leaving state untouched, if either fails; finally
reconcile. Returns the new state and the emitted TT operations. -/
def batadv_mcast_mla_tt_update (bat : BatPriv)
    (primary master : Option NetDevice) (br : List BrIp) (alloc : List Bool) :
    BatPriv × List TTOp :=
  match primary with
  | none => (bat, [])
  | some soft_iface =>
    if bat.mcast_group_awareness = false then
      match batadv_mcast_reconcile bat.mla_list [] with
      | (mla2, _, ops) =>
        ({ mla_list := mla2, mcast_group_awareness := bat.mcast_group_awareness }, ops)
    else
      match batadv_mcast_mla_local_collect soft_iface master [] BATADV_MLA_MAX alloc with
      | (ret, lst, alloc') =>
        if ret < 0 then (bat, [])
        else
          match batadv_mcast_mla_bridge_collect br lst
              (BATADV_MLA_MAX - ret.toNat) alloc' with
          | (ret2, lst2, _) =>
            if ret2 < 0 then (bat, [])
            else
              match batadv_mcast_reconcile bat.mla_list lst2 with
              | (mla2, _, ops) =>
                ({ mla_list := mla2,
                   mcast_group_awareness := bat.mcast_group_awareness }, ops)

-- Concrete test fixtures used by counterexamples and witnesses.

/-- A transient IPv6 multicast group address, ff12::1. -/
def gTrans : In6Addr :=
  ⟨[0xff, 0x12, 0, 0, 0, 0, 0, 0, 0, 0, 0, 0, 0, 0, 0, 1]⟩

/-- The MAC 33:33:00:00:00:01, the RFC 2464 mapping of `gTrans`. -/
def macA : Mac := ⟨0x33, 0x33, 0, 0, 0, 1⟩

/-- A device announcing `macA` twice in its hardware multicast list,
with `gTrans` joined so that `macA` passes the classifier. -/
def devDup : NetDevice :=
  { mc := [macA, macA], in6_dev := some ⟨[gTrans]⟩, in_dev := none }

/-- A device with an empty hardware multicast list and no IP state. -/
def devEmpty : NetDevice := { mc := [], in6_dev := none, in_dev := none }

/-- A bridge snoop entry for IPv4 group 224.1.2.3 (not link-local). -/
def brE1 : BrIp := { proto := ETH_P_IP, ip4 := 0xe0010203, ip6 := ⟨[]⟩ }

/-- A bridge snoop entry for IPv4 group 224.1.2.4 (not link-local). -/
def brE2 : BrIp := { proto := ETH_P_IP, ip4 := 0xe0010204, ip6 := ⟨[]⟩ }

/-- A bridge snoop entry with an unrecognized protocol family. -/
def brEU : BrIp := { proto := 0x1234, ip4 := 0, ip6 := ⟨[]⟩ }

example :
    batadv_mcast_mla_local_collect devDup none [] 255 []
      = (2, [macA, macA], []) := by decide

example :
    batadv_mcast_mla_local_collect devDup none [] 255 [true, false]
      = (-12, [macA], []) := by decide

example :
    batadv_mcast_mla_bridge_collect [brE1, brE2] [] 255 [true, false]
      = (-12, [⟨0x01, 0x00, 0x5e, 1, 2, 3⟩], []) := by decide

example :
    batadv_mcast_mla_bridge_collect [brEU] [] 255 []
      = (1, [zeroMac], []) := by decide

example :
    batadv_mcast_reconcile [] [zeroMac]
      = ([zeroMac], [], [TTOp.add zeroMac]) := by decide

example :
    batadv_mcast_reconcile [macA, zeroMac] [macA]
      = ([macA], [macA], [TTOp.remove zeroMac]) := by decide

example :
    batadv_mcast_mla_tt_update ⟨[macA], false⟩ (some devDup) none [] []
      = (⟨[], false⟩, [TTOp.remove macA]) := by decide

example :
    batadv_mcast_mla_tt_update ⟨[macA], true⟩ none none [] []
      = (⟨[macA], true⟩, []) := by decide

-- Helper lemmas.

theorem is_duplicate_iff (a : Mac) (l : List Mac) :
    batadv_mcast_mla_is_duplicate a l = true ↔ a ∈ l := by
  simp [batadv_mcast_mla_is_duplicate, List.any_eq_true]

theorem tt_clean_eq (mla_list mcast_list : List Mac) :
    batadv_mcast_mla_tt_clean mla_list mcast_list =
      (mla_list.filter (fun e => batadv_mcast_mla_is_duplicate e mcast_list),
       (mla_list.filter
          (fun e => !batadv_mcast_mla_is_duplicate e mcast_list)).map TTOp.remove) := by
  induction mla_list with
  | nil => rfl
  | cons e rest ih =>
    by_cases h : batadv_mcast_mla_is_duplicate e mcast_list = true
    · simp [batadv_mcast_mla_tt_clean, ih, h, List.filter_cons]
    · simp [batadv_mcast_mla_tt_clean, ih, h, List.filter_cons,
        Bool.not_eq_true]

theorem tt_add_spec (mcast_list : List Mac) : ∀ mla_list : List Mac,
    ∃ ext rest,
      batadv_mcast_mla_tt_add mla_list mcast_list
        = (mla_list ++ ext, rest, ext.map TTOp.add)
      ∧ (∀ x, x ∈ ext ↔ x ∈ mcast_list ∧ x ∉ mla_list)
      ∧ ext.Nodup
      ∧ (∀ x, x ∈ rest → x ∈ mla_list ++ ext) := by
  induction mcast_list with
  | nil =>
    intro mla
    exact ⟨[], [], by simp [batadv_mcast_mla_tt_add], by simp, List.nodup_nil,
      by simp⟩
  | cons e rest ih =>
    intro mla
    by_cases hdup : batadv_mcast_mla_is_duplicate e mla = true
    · obtain ⟨ext, r, heq, hmem, hnd, hrest⟩ := ih mla
      have he : e ∈ mla := (is_duplicate_iff e mla).mp hdup
      refine ⟨ext, e :: r, ?_, ?_, hnd, ?_⟩
      · simp [batadv_mcast_mla_tt_add, hdup, heq]
      · intro x
        rw [hmem x]
        constructor
        · rintro ⟨hx, hnx⟩
          exact ⟨List.mem_cons_of_mem _ hx, hnx⟩
        · rintro ⟨hx, hnx⟩
          rcases List.mem_cons.mp hx with rfl | hx
          · exact absurd he hnx
          · exact ⟨hx, hnx⟩
      · intro x hx
        rcases List.mem_cons.mp hx with rfl | hx
        · exact List.mem_append_left _ he
        · exact hrest x hx
    · obtain ⟨ext, r, heq, hmem, hnd, hrest⟩ := ih (mla ++ [e])
      have henot : e ∉ mla := fun h => hdup ((is_duplicate_iff e mla).mpr h)
      have hextnot : e ∉ ext := by
        intro hx
        exact ((hmem e).mp hx).2 (List.mem_append_right _ (List.mem_singleton.mpr rfl))
      refine ⟨e :: ext, r, ?_, ?_, ?_, ?_⟩
      · simp [batadv_mcast_mla_tt_add, hdup, heq]
      · intro x
        constructor
        · intro hx
          rcases List.mem_cons.mp hx with rfl | hx
          · exact ⟨List.mem_cons_self _ _, henot⟩
          · obtain ⟨h1, h2⟩ := (hmem x).mp hx
            exact ⟨List.mem_cons_of_mem _ h1,
              fun hm => h2 (List.mem_append_left _ hm)⟩
        · rintro ⟨hx, hnx⟩
          rcases List.mem_cons.mp hx with rfl | hx
          · exact List.mem_cons_self _ _
          · by_cases hxe : x = e
            · subst hxe
              exact List.mem_cons_self _ _
            · refine List.mem_cons_of_mem _ ((hmem x).mpr ⟨hx, fun hm => ?_⟩)
              rcases List.mem_append.mp hm with hm | hm
              · exact hnx hm
              · exact hxe (List.mem_singleton.mp hm)
      · exact List.nodup_cons.mpr ⟨hextnot, hnd⟩
      · intro x hx
        have hx2 := hrest x hx
        simp only [List.append_assoc, List.singleton_append] at hx2
        exact hx2

theorem reconcile_spec (mla_list mcast_list : List Mac) :
    ∃ ext rest,
      batadv_mcast_reconcile mla_list mcast_list
        = (mla_list.filter (fun e => batadv_mcast_mla_is_duplicate e mcast_list)
             ++ ext,
           rest,
           (mla_list.filter
              (fun e => !batadv_mcast_mla_is_duplicate e mcast_list)).map TTOp.remove
             ++ ext.map TTOp.add)
      ∧ (∀ x, x ∈ ext ↔ x ∈ mcast_list ∧
          x ∉ mla_list.filter (fun e => batadv_mcast_mla_is_duplicate e mcast_list))
      ∧ ext.Nodup
      ∧ (∀ x, x ∈ rest →
          x ∈ mla_list.filter (fun e => batadv_mcast_mla_is_duplicate e mcast_list)
            ++ ext) := by
  obtain ⟨ext, rest, heq, hmem, hnd, hrest⟩ :=
    tt_add_spec mcast_list
      (mla_list.filter (fun e => batadv_mcast_mla_is_duplicate e mcast_list))
  refine ⟨ext, rest, ?_, hmem, hnd, hrest⟩
  simp [batadv_mcast_reconcile, tt_clean_eq, heq]

theorem reconcile_mem (mla_list mcast_list : List Mac) (x : Mac) :
    x ∈ (batadv_mcast_reconcile mla_list mcast_list).1 ↔ x ∈ mcast_list := by
  obtain ⟨ext, rest, heq, hmem, hnd, hrest⟩ := reconcile_spec mla_list mcast_list
  rw [heq]
  dsimp only
  simp only [List.mem_append]
  constructor
  · rintro (hx | hx)
    · exact (is_duplicate_iff _ _).mp (List.mem_filter.mp hx).2
    · exact ((hmem x).mp hx).1
  · intro hx
    by_cases hk :
        x ∈ mla_list.filter (fun e => batadv_mcast_mla_is_duplicate e mcast_list)
    · exact Or.inl hk
    · exact Or.inr ((hmem x).mpr ⟨hx, hk⟩)

theorem reconcile_nodup (mla_list mcast_list : List Mac) (h : mla_list.Nodup) :
    (batadv_mcast_reconcile mla_list mcast_list).1.Nodup := by
  obtain ⟨ext, rest, heq, hmem, hnd, hrest⟩ := reconcile_spec mla_list mcast_list
  rw [heq]
  dsimp only
  refine List.Nodup.append (List.Nodup.filter _ h) hnd ?_
  intro x hx1 hx2
  exact ((hmem x).mp hx2).2 hx1

theorem tt_add_all_dup (mcast_list : List Mac) : ∀ mla_list : List Mac,
    (∀ x ∈ mcast_list, batadv_mcast_mla_is_duplicate x mla_list = true) →
    batadv_mcast_mla_tt_add mla_list mcast_list = (mla_list, mcast_list, []) := by
  induction mcast_list with
  | nil =>
    intro mla _
    rfl
  | cons e rest ih =>
    intro mla h
    have he := h e (List.mem_cons_self _ _)
    have hr := ih mla (fun x hx => h x (List.mem_cons_of_mem _ hx))
    simp [batadv_mcast_mla_tt_add, he, hr]

theorem reconcile_stable (mla_list mcast_list : List Mac)
    (h : ∀ x, x ∈ mla_list ↔ x ∈ mcast_list) :
    batadv_mcast_reconcile mla_list mcast_list = (mla_list, mcast_list, []) := by
  have hclean :
      mla_list.filter (fun e => batadv_mcast_mla_is_duplicate e mcast_list)
        = mla_list := by
    refine List.filter_eq_self.mpr ?_
    intro a ha
    exact (is_duplicate_iff _ _).mpr ((h a).mp ha)
  have hclean2 :
      mla_list.filter (fun e => !batadv_mcast_mla_is_duplicate e mcast_list)
        = [] := by
    refine List.filter_eq_nil_iff.mpr ?_
    intro a ha
    simp [(is_duplicate_iff _ _).mpr ((h a).mp ha)]
  have hadd := tt_add_all_dup mcast_list mla_list
    (fun x hx => (is_duplicate_iff _ _).mpr ((h x).mpr hx))
  simp [batadv_mcast_reconcile, tt_clean_eq, hclean, hclean2, hadd]

theorem localCollectGo_spec (dev : NetDevice) : ∀ (src : List Mac)
    (num_mla num_mla_max : Nat) (mcast_list : List Mac) (alloc : List Bool),
    num_mla ≤ num_mla_max →
    ∀ n l a,
      localCollectGo dev src num_mla num_mla_max mcast_list alloc = (some n, l, a) →
      num_mla ≤ n ∧ n ≤ num_mla_max ∧ l.length + num_mla = mcast_list.length + n := by
  intro src
  induction src with
  | nil =>
    intro num_mla max lst alloc hle n l a heq
    simp only [localCollectGo, Prod.mk.injEq, Option.some.injEq] at heq
    obtain ⟨rfl, rfl, rfl⟩ := heq
    omega
  | cons addr rest ih =>
    intro num_mla max lst alloc hle n l a heq
    rw [localCollectGo] at heq
    by_cases hcap : max ≤ num_mla
    · rw [if_pos hcap] at heq
      simp only [Prod.mk.injEq, Option.some.injEq] at heq
      obtain ⟨rfl, rfl, rfl⟩ := heq
      omega
    · rw [if_neg hcap] at heq
      cases hun : batadv_mcast_mla_has_unspecial_addr addr dev with
      | false =>
        rw [hun] at heq
        simp only [Bool.not_false, if_true] at heq
        exact ih num_mla max lst alloc hle n l a heq
      | true =>
        rw [hun] at heq
        simp only [Bool.not_true, Bool.false_eq_true, if_false] at heq
        rcases halloc : kmalloc alloc with ⟨b, alloc2⟩
        rw [halloc] at heq
        cases b with
        | false => simp at heq
        | true =>
          have hres := ih (num_mla + 1) max (addr :: lst) alloc2 (by omega)
            n l a heq
          simp only [List.length_cons] at hres
          omega

theorem localCollectGo_nodup (dev : NetDevice) : ∀ (src : List Mac)
    (num_mla num_mla_max : Nat) (mcast_list : List Mac) (alloc : List Bool),
    src.Nodup → mcast_list.Nodup → (∀ x ∈ src, x ∉ mcast_list) →
    (localCollectGo dev src num_mla num_mla_max mcast_list alloc).2.1.Nodup := by
  intro src
  induction src with
  | nil =>
    intro num_mla max lst alloc _ hnd _
    simpa [localCollectGo] using hnd
  | cons addr rest ih =>
    intro num_mla max lst alloc hsrc hnd hdisj
    rw [localCollectGo]
    by_cases hcap : max ≤ num_mla
    · rw [if_pos hcap]
      exact hnd
    · rw [if_neg hcap]
      cases hun : batadv_mcast_mla_has_unspecial_addr addr dev with
      | false =>
        simp only [Bool.not_false, if_true]
        exact ih num_mla max lst alloc (List.Nodup.of_cons hsrc) hnd
          (fun x hx => hdisj x (List.mem_cons_of_mem _ hx))
      | true =>
        simp only [Bool.not_true, Bool.false_eq_true, if_false]
        rcases halloc : kmalloc alloc with ⟨b, alloc2⟩
        cases b with
        | false => exact hnd
        | true =>
          refine ih (num_mla + 1) max (addr :: lst) alloc2
            (List.Nodup.of_cons hsrc) ?_ ?_
          · exact List.nodup_cons.mpr
              ⟨hdisj addr (List.mem_cons_self _ _), hnd⟩
          · intro x hx
            intro hmem
            rcases List.mem_cons.mp hmem with rfl | hmem
            · exact (List.nodup_cons.mp hsrc).1 hx
            · exact hdisj x (List.mem_cons_of_mem _ hx) hmem

theorem bridgeCollectGo_spec : ∀ (br : List BrIp)
    (num_mla num_mla_max : Nat) (mcast_list : List Mac) (alloc : List Bool),
    num_mla ≤ num_mla_max →
    ∀ n l a,
      bridgeCollectGo br num_mla num_mla_max mcast_list alloc = (some n, l, a) →
      num_mla ≤ n ∧ n ≤ num_mla_max ∧ l.length + num_mla = mcast_list.length + n := by
  intro br
  induction br with
  | nil =>
    intro num_mla max lst alloc hle n l a heq
    simp only [bridgeCollectGo, Prod.mk.injEq, Option.some.injEq] at heq
    obtain ⟨rfl, rfl, rfl⟩ := heq
    omega
  | cons e rest ih =>
    intro num_mla max lst alloc hle n l a heq
    rw [bridgeCollectGo] at heq
    by_cases hcap : max ≤ num_mla
    · rw [if_pos hcap] at heq
      simp only [Prod.mk.injEq, Option.some.injEq] at heq
      obtain ⟨rfl, rfl, rfl⟩ := heq
      omega
    · rw [if_neg hcap] at heq
      by_cases hdup :
          batadv_mcast_mla_is_duplicate (batadv_mcast_mla_br_addr_cpy e) lst = true
      · rw [if_pos hdup] at heq
        exact ih num_mla max lst alloc hle n l a heq
      · rw [if_neg hdup] at heq
        rcases halloc : kmalloc alloc with ⟨b, alloc2⟩
        rw [halloc] at heq
        cases b with
        | false => simp at heq
        | true =>
          have hres := ih (num_mla + 1) max
            (batadv_mcast_mla_br_addr_cpy e :: lst) alloc2 (by omega) n l a heq
          simp only [List.length_cons] at hres
          omega

theorem bridgeCollectGo_nodup : ∀ (br : List BrIp)
    (num_mla num_mla_max : Nat) (mcast_list : List Mac) (alloc : List Bool),
    mcast_list.Nodup →
    (bridgeCollectGo br num_mla num_mla_max mcast_list alloc).2.1.Nodup := by
  intro br
  induction br with
  | nil =>
    intro num_mla max lst alloc hnd
    simpa [bridgeCollectGo] using hnd
  | cons e rest ih =>
    intro num_mla max lst alloc hnd
    rw [bridgeCollectGo]
    by_cases hcap : max ≤ num_mla
    · rw [if_pos hcap]
      exact hnd
    · rw [if_neg hcap]
      by_cases hdup :
          batadv_mcast_mla_is_duplicate (batadv_mcast_mla_br_addr_cpy e) lst = true
      · rw [if_pos hdup]
        exact ih num_mla max lst alloc hnd
      · rw [if_neg hdup]
        rcases halloc : kmalloc alloc with ⟨b, alloc2⟩
        cases b with
        | false => exact hnd
        | true =>
          refine ih (num_mla + 1) max (batadv_mcast_mla_br_addr_cpy e :: lst) alloc2 ?_
          refine List.nodup_cons.mpr ⟨fun hmem => hdup ?_, hnd⟩
          exact (is_duplicate_iff _ _).mpr hmem

theorem reconcile_empty (mla_list : List Mac) :
    batadv_mcast_reconcile mla_list [] = ([], [], mla_list.map TTOp.remove) := by
  simp [batadv_mcast_reconcile, tt_clean_eq, batadv_mcast_mla_is_duplicate,
    batadv_mcast_mla_tt_add]

theorem local_collect_success_spec (dev : NetDevice) (master : Option NetDevice)
    (mcast_list : List Mac) (num_mla_max : Nat) (alloc : List Bool) :
    ∀ n l a,
      batadv_mcast_mla_local_collect dev master mcast_list num_mla_max alloc
        = (Int.ofNat n, l, a) →
      n ≤ num_mla_max ∧ l.length = mcast_list.length + n := by
  intro n l a heq
  rcases hgo : localCollectGo (master.getD dev) (master.getD dev).mc 0 num_mla_max
      mcast_list alloc with ⟨res, l2, a2⟩
  cases res with
  | none =>
    rw [batadv_mcast_mla_local_collect, hgo] at heq
    simp at heq
  | some m =>
    rw [batadv_mcast_mla_local_collect, hgo] at heq
    simp only [Prod.mk.injEq] at heq
    obtain ⟨hmn, rfl, rfl⟩ := heq
    have hmn2 : m = n := Int.ofNat.inj hmn
    subst hmn2
    have hs := localCollectGo_spec (master.getD dev) (master.getD dev).mc 0
      num_mla_max mcast_list alloc (Nat.zero_le _) m l2 a2 hgo
    omega

theorem bridge_collect_success_spec (br : List BrIp)
    (mcast_list : List Mac) (num_mla_max : Nat) (alloc : List Bool) :
    ∀ n l a,
      batadv_mcast_mla_bridge_collect br mcast_list num_mla_max alloc
        = (Int.ofNat n, l, a) →
      n ≤ num_mla_max ∧ l.length = mcast_list.length + n := by
  intro n l a heq
  rcases hgo : bridgeCollectGo br 0 num_mla_max mcast_list alloc with ⟨res, l2, a2⟩
  cases res with
  | none =>
    rw [batadv_mcast_mla_bridge_collect, hgo] at heq
    simp at heq
  | some m =>
    rw [batadv_mcast_mla_bridge_collect, hgo] at heq
    simp only [Prod.mk.injEq] at heq
    obtain ⟨hmn, rfl, rfl⟩ := heq
    have hmn2 : m = n := Int.ofNat.inj hmn
    subst hmn2
    have hs := bridgeCollectGo_spec br 0 num_mla_max mcast_list alloc
      (Nat.zero_le _) m l2 a2 hgo
    omega

theorem local_collect_nodup (dev : NetDevice) (master : Option NetDevice)
    (mcast_list : List Mac) (num_mla_max : Nat) (alloc : List Bool)
    (hsrc : (master.getD dev).mc.Nodup) (hnd : mcast_list.Nodup)
    (hdisj : ∀ x ∈ (master.getD dev).mc, x ∉ mcast_list) :
    (batadv_mcast_mla_local_collect dev master mcast_list num_mla_max alloc).2.1.Nodup := by
  rcases hgo : localCollectGo (master.getD dev) (master.getD dev).mc 0 num_mla_max
      mcast_list alloc with ⟨res, l2, a2⟩
  have hn := localCollectGo_nodup (master.getD dev) (master.getD dev).mc 0
    num_mla_max mcast_list alloc hsrc hnd hdisj
  rw [hgo] at hn
  cases res with
  | none => simpa [batadv_mcast_mla_local_collect, hgo] using hn
  | some m => simpa [batadv_mcast_mla_local_collect, hgo] using hn

theorem bridge_collect_nodup (br : List BrIp) (mcast_list : List Mac)
    (num_mla_max : Nat) (alloc : List Bool) (hnd : mcast_list.Nodup) :
    (batadv_mcast_mla_bridge_collect br mcast_list num_mla_max alloc).2.1.Nodup := by
  rcases hgo : bridgeCollectGo br 0 num_mla_max mcast_list alloc with ⟨res, l2, a2⟩
  have hn := bridgeCollectGo_nodup br 0 num_mla_max mcast_list alloc hnd
  rw [hgo] at hn
  cases res with
  | none => simpa [batadv_mcast_mla_bridge_collect, hgo] using hn
  | some m => simpa [batadv_mcast_mla_bridge_collect, hgo] using hn

theorem tt_update_none (bat : BatPriv) (master : Option NetDevice)
    (br : List BrIp) (alloc : List Bool) :
    batadv_mcast_mla_tt_update bat none master br alloc = (bat, []) := rfl

theorem tt_update_disabled (bat : BatPriv) (dev : NetDevice)
    (master : Option NetDevice) (br : List BrIp) (alloc : List Bool)
    (h : bat.mcast_group_awareness = false) :
    batadv_mcast_mla_tt_update bat (some dev) master br alloc
      = ({ mla_list := [], mcast_group_awareness := bat.mcast_group_awareness },
         bat.mla_list.map TTOp.remove) := by
  simp [batadv_mcast_mla_tt_update, h, reconcile_empty]

theorem tt_update_local_fail (bat : BatPriv) (dev : NetDevice)
    (master : Option NetDevice) (br : List BrIp) (alloc : List Bool)
    (ret : Int) (lst : List Mac) (al : List Bool)
    (ha : bat.mcast_group_awareness = true)
    (hl : batadv_mcast_mla_local_collect dev master [] BATADV_MLA_MAX alloc
            = (ret, lst, al))
    (hf : ret < 0) :
    batadv_mcast_mla_tt_update bat (some dev) master br alloc = (bat, []) := by
  simp [batadv_mcast_mla_tt_update, ha, hl, hf]

theorem tt_update_bridge_fail (bat : BatPriv) (dev : NetDevice)
    (master : Option NetDevice) (br : List BrIp) (alloc : List Bool)
    (ret : Int) (lst : List Mac) (al : List Bool)
    (ret2 : Int) (lst2 : List Mac) (al2 : List Bool)
    (ha : bat.mcast_group_awareness = true)
    (hl : batadv_mcast_mla_local_collect dev master [] BATADV_MLA_MAX alloc
            = (ret, lst, al))
    (h1 : ¬ ret < 0)
    (hb : batadv_mcast_mla_bridge_collect br lst (BATADV_MLA_MAX - ret.toNat) al
            = (ret2, lst2, al2))
    (h2 : ret2 < 0) :
    batadv_mcast_mla_tt_update bat (some dev) master br alloc = (bat, []) := by
  simp [batadv_mcast_mla_tt_update, ha, hl, hb, h1, h2]

theorem tt_update_success (bat : BatPriv) (dev : NetDevice)
    (master : Option NetDevice) (br : List BrIp) (alloc : List Bool)
    (ret : Int) (lst : List Mac) (al : List Bool)
    (ret2 : Int) (lst2 : List Mac) (al2 : List Bool)
    (ha : bat.mcast_group_awareness = true)
    (hl : batadv_mcast_mla_local_collect dev master [] BATADV_MLA_MAX alloc
            = (ret, lst, al))
    (h1 : ¬ ret < 0)
    (hb : batadv_mcast_mla_bridge_collect br lst (BATADV_MLA_MAX - ret.toNat) al
            = (ret2, lst2, al2))
    (h2 : ¬ ret2 < 0) :
    batadv_mcast_mla_tt_update bat (some dev) master br alloc
      = ({ mla_list := (batadv_mcast_reconcile bat.mla_list lst2).1,
           mcast_group_awareness := bat.mcast_group_awareness },
         (batadv_mcast_reconcile bat.mla_list lst2).2.2) := by
  rcases hr : batadv_mcast_reconcile bat.mla_list lst2 with ⟨mla2, rest2, ops2⟩
  simp [batadv_mcast_mla_tt_update, ha, hl, hb, hr, h1, h2]

theorem reconcile_length_le (mla_list mcast_list : List Mac)
    (h : mla_list.Nodup) :
    (batadv_mcast_reconcile mla_list mcast_list).1.length ≤ mcast_list.length := by
  have hnd := reconcile_nodup mla_list mcast_list h
  have hsub : (batadv_mcast_reconcile mla_list mcast_list).1 ⊆ mcast_list :=
    fun x hx => (reconcile_mem mla_list mcast_list x).mp hx
  exact (List.subperm_of_subset hnd hsub).length_le

theorem has_transient_iff (addr : Mac) (dev : NetDevice) :
    batadv_mcast_mla_has_transient_ipv6 addr dev = true ↔
      ∃ g ∈ dev.ip6Groups, ipv6_eth_mc_map g = addr
        ∧ IPV6_ADDR_MC_FLAG_TRANSIENT g = true := by
  cases hd : dev.in6_dev with
  | none =>
    simp [batadv_mcast_mla_has_transient_ipv6, NetDevice.ip6Groups, hd]
  | some idev =>
    simp [batadv_mcast_mla_has_transient_ipv6, NetDevice.ip6Groups, hd,
      List.any_eq_true, and_assoc]

theorem has_non_ll_iff (addr : Mac) (dev : NetDevice) :
    batadv_mcast_mla_has_non_ll_ipv4 addr dev = true ↔
      ∃ g ∈ dev.ip4Groups, ip_eth_mc_map g = addr
        ∧ ipv4_is_local_multicast g = false := by
  cases hd : dev.in_dev with
  | none =>
    simp [batadv_mcast_mla_has_non_ll_ipv4, NetDevice.ip4Groups, hd]
  | some idev =>
    simp [batadv_mcast_mla_has_non_ll_ipv4, NetDevice.ip4Groups, hd,
      List.any_eq_true, and_assoc, Bool.not_eq_true]

-- Claim theorems.

/-- C3: for every 6-byte address and device, the classifier
batadv_mcast_mla_has_unspecial_addr returns true for an address with the
IPv6 multicast MAC form 33:33:... iff the device has a joined IPv6
multicast group whose derived MAC equals the address and whose IPv6
address carries the transient flag; it returns true for an address with
the IPv4 multicast MAC form 01:00:5e:... iff the device has a joined
IPv4 multicast group whose derived MAC equals the address and whose IPv4
address is not link-local (not in 224.0.0.0/24); and it returns false
for every other address. -/
theorem mla_classifier_spec (addr : Mac) (dev : NetDevice) :
    batadv_mcast_mla_has_unspecial_addr addr dev = true ↔
      ((addr.b0 = 0x33 ∧ addr.b1 = 0x33 ∧
          ∃ g ∈ dev.ip6Groups, ipv6_eth_mc_map g = addr
            ∧ IPV6_ADDR_MC_FLAG_TRANSIENT g = true)
       ∨ (addr.b0 = 0x01 ∧ addr.b1 = 0x00 ∧ addr.b2 = 0x5e ∧
          ∃ g ∈ dev.ip4Groups, ip_eth_mc_map g = addr
            ∧ ipv4_is_local_multicast g = false)) := by
  rw [batadv_mcast_mla_has_unspecial_addr]
  by_cases h6 : addr.b0 = 0x33 ∧ addr.b1 = 0x33
  · have hc : (addr.b0 == 0x33 && addr.b1 == 0x33) = true := by
      simp [h6.1, h6.2]
    rw [hc, if_pos rfl, has_transient_iff]
    constructor
    · intro hex
      exact Or.inl ⟨h6.1, h6.2, hex⟩
    · rintro (⟨_, _, hex⟩ | ⟨hb0, _, _⟩)
      · exact hex
      · rw [h6.1] at hb0
        cases hb0
  · have hc : (addr.b0 == 0x33 && addr.b1 == 0x33) = false := by
      rcases Decidable.not_and_iff_or_not.mp h6 with h | h <;> simp [h]
    rw [hc]
    simp only [Bool.false_eq_true, if_false]
    by_cases h4 : addr.b0 = 0x01 ∧ addr.b1 = 0x00 ∧ addr.b2 = 0x5e
    · have hc2 : (addr.b0 == 0x01 && (addr.b1 == 0x00 && addr.b2 == 0x5e)) = true := by
        simp [h4.1, h4.2.1, h4.2.2]
      rw [show (addr.b0 == 0x01 && addr.b1 == 0x00 && addr.b2 == 0x5e)
            = (addr.b0 == 0x01 && (addr.b1 == 0x00 && addr.b2 == 0x5e)) from by
          rw [Bool.and_assoc], hc2, if_pos rfl, has_non_ll_iff]
      constructor
      · intro hex
        exact Or.inr ⟨h4.1, h4.2.1, h4.2.2, hex⟩
      · rintro (⟨hb0, _, _⟩ | ⟨_, _, _, hex⟩)
        · rw [h4.1] at hb0
          cases hb0
        · exact hex
    · have hc2 : (addr.b0 == 0x01 && addr.b1 == 0x00 && addr.b2 == 0x5e) = false := by
        rcases Decidable.not_and_iff_or_not.mp h4 with h | h
        · simp [h]
        · rcases Decidable.not_and_iff_or_not.mp h with h2 | h2 <;> simp [h2]
      rw [hc2]
      simp only [Bool.false_eq_true, if_false, false_iff]
      rintro (⟨ha0, ha1, _⟩ | ⟨ha0, ha1, ha2, _⟩)
      · exact h6 ⟨ha0, ha1⟩
      · exact h4 ⟨ha0, ha1, ha2⟩

/-- C2: in every reconciliation cycle all TT removals (one for each
address in the previous announced list and not in the candidate list)
are issued before any TT add (one for each address in the candidate list
and not in the previous announced list); addresses present in both (by
exact 6-byte match) receive no add and no remove; afterwards the
announced list holds exactly the addresses of the candidate list, whose
leftover entries are all already announced (the candidate is consumed). -/
theorem mla_reconcile_ordering_and_convergence (mla_list mcast_list : List Mac)
    (hnd : mla_list.Nodup) :
    ∃ rs as : List Mac,
      (batadv_mcast_reconcile mla_list mcast_list).2.2
        = rs.map TTOp.remove ++ as.map TTOp.add
      ∧ rs.Nodup ∧ as.Nodup
      ∧ (∀ a, a ∈ rs ↔ a ∈ mla_list ∧ a ∉ mcast_list)
      ∧ (∀ a, a ∈ as ↔ a ∈ mcast_list ∧ a ∉ mla_list)
      ∧ (∀ a, a ∈ mla_list → a ∈ mcast_list →
          TTOp.remove a ∉ (batadv_mcast_reconcile mla_list mcast_list).2.2
          ∧ TTOp.add a ∉ (batadv_mcast_reconcile mla_list mcast_list).2.2)
      ∧ (∀ x, x ∈ (batadv_mcast_reconcile mla_list mcast_list).1 ↔ x ∈ mcast_list)
      ∧ (∀ x, x ∈ (batadv_mcast_reconcile mla_list mcast_list).2.1 →
          x ∈ (batadv_mcast_reconcile mla_list mcast_list).1) := by
  obtain ⟨ext, rest, heq, hmem, hextnd, hrest⟩ := reconcile_spec mla_list mcast_list
  refine ⟨mla_list.filter (fun e => !batadv_mcast_mla_is_duplicate e mcast_list),
    ext, ?_, List.Nodup.filter _ hnd, hextnd, ?_, ?_, ?_, ?_, ?_⟩
  · rw [heq]
  · intro a
    simp only [List.mem_filter, Bool.not_eq_eq_eq_not, Bool.not_true]
    constructor
    · rintro ⟨h1, h2⟩
      refine ⟨h1, fun hc => ?_⟩
      rw [(is_duplicate_iff a mcast_list).mpr hc] at h2
      cases h2
    · rintro ⟨h1, h2⟩
      refine ⟨h1, ?_⟩
      cases hd : batadv_mcast_mla_is_duplicate a mcast_list
      · rfl
      · exact absurd ((is_duplicate_iff _ _).mp hd) h2
  · intro a
    rw [hmem a]
    constructor
    · rintro ⟨h1, h2⟩
      exact ⟨h1, fun hm =>
        h2 (List.mem_filter.mpr ⟨hm, (is_duplicate_iff _ _).mpr h1⟩)⟩
    · rintro ⟨h1, h2⟩
      exact ⟨h1, fun hm => h2 (List.mem_filter.mp hm).1⟩
  · intro a hm hc
    constructor
    · intro hop
      rw [heq] at hop
      dsimp only at hop
      rcases List.mem_append.mp hop with hop | hop
      · obtain ⟨b, hb, hbe⟩ := List.mem_map.mp hop
        injection hbe with hba
        subst hba
        have hf := List.mem_filter.mp hb
        rw [(is_duplicate_iff b mcast_list).mpr hc] at hf
        cases hf.2
      · obtain ⟨b, hb, hbe⟩ := List.mem_map.mp hop
        exact TTOp.noConfusion hbe
    · intro hop
      rw [heq] at hop
      dsimp only at hop
      rcases List.mem_append.mp hop with hop | hop
      · obtain ⟨b, hb, hbe⟩ := List.mem_map.mp hop
        exact TTOp.noConfusion hbe
      · obtain ⟨b, hb, hbe⟩ := List.mem_map.mp hop
        injection hbe with hba
        subst hba
        exact ((hmem b).mp hb).2
          (List.mem_filter.mpr ⟨hm, (is_duplicate_iff _ _).mpr hc⟩)
  · intro x
    exact reconcile_mem mla_list mcast_list x
  · intro x hx
    rw [heq] at hx ⊢
    dsimp only at hx ⊢
    exact hrest x hx

/-- C2 witness: instantiation of the reconciliation ordering and
convergence property at previous = [macA], candidate = [zeroMac]. -/
theorem mla_reconcile_ordering_and_convergence_witness :
    ([macA] : List Mac).Nodup ∧
    ∃ rs as : List Mac,
      (batadv_mcast_reconcile [macA] [zeroMac]).2.2
        = rs.map TTOp.remove ++ as.map TTOp.add
      ∧ rs.Nodup ∧ as.Nodup
      ∧ (∀ a, a ∈ rs ↔ a ∈ ([macA] : List Mac) ∧ a ∉ ([zeroMac] : List Mac))
      ∧ (∀ a, a ∈ as ↔ a ∈ ([zeroMac] : List Mac) ∧ a ∉ ([macA] : List Mac))
      ∧ (∀ a, a ∈ ([macA] : List Mac) → a ∈ ([zeroMac] : List Mac) →
          TTOp.remove a ∉ (batadv_mcast_reconcile [macA] [zeroMac]).2.2
          ∧ TTOp.add a ∉ (batadv_mcast_reconcile [macA] [zeroMac]).2.2)
      ∧ (∀ x, x ∈ (batadv_mcast_reconcile [macA] [zeroMac]).1 ↔
          x ∈ ([zeroMac] : List Mac))
      ∧ (∀ x, x ∈ (batadv_mcast_reconcile [macA] [zeroMac]).2.1 →
          x ∈ (batadv_mcast_reconcile [macA] [zeroMac]).1) :=
  ⟨by decide, mla_reconcile_ordering_and_convergence [macA] [zeroMac] (by decide)⟩

/-- C9: running the reconciler a second time with the same candidate
list leaves the announced list exactly as after the first run and issues
no TT operation at all (the whole leftover is the untouched candidate). -/
theorem mla_reconcile_idempotent (mla_list mcast_list : List Mac) :
    batadv_mcast_reconcile (batadv_mcast_reconcile mla_list mcast_list).1 mcast_list
      = ((batadv_mcast_reconcile mla_list mcast_list).1, mcast_list, []) :=
  reconcile_stable _ _ (reconcile_mem mla_list mcast_list)

/-- C1: if either collector call of a cycle fails with an allocation
error (negative return), batadv_mcast_mla_tt_update aborts before any
reconciliation step: the announced list (byte for byte) is unchanged and
no TT operation is issued, so the distribution table is untouched. -/
theorem mla_update_alloc_failure_preserves_state (bat : BatPriv)
    (dev : NetDevice) (master : Option NetDevice) (br : List BrIp)
    (alloc : List Bool)
    (ha : bat.mcast_group_awareness = true)
    (hfail :
      (batadv_mcast_mla_local_collect dev master [] BATADV_MLA_MAX alloc).1 < 0
      ∨ (batadv_mcast_mla_bridge_collect br
          (batadv_mcast_mla_local_collect dev master [] BATADV_MLA_MAX alloc).2.1
          (BATADV_MLA_MAX
            - (batadv_mcast_mla_local_collect dev master []
                BATADV_MLA_MAX alloc).1.toNat)
          (batadv_mcast_mla_local_collect dev master []
            BATADV_MLA_MAX alloc).2.2).1 < 0) :
    batadv_mcast_mla_tt_update bat (some dev) master br alloc = (bat, []) := by
  rcases hl : batadv_mcast_mla_local_collect dev master [] BATADV_MLA_MAX alloc
    with ⟨ret, lst, al⟩
  rw [hl] at hfail
  by_cases h1 : ret < 0
  · exact tt_update_local_fail bat dev master br alloc ret lst al ha hl h1
  · have hf : (batadv_mcast_mla_bridge_collect br lst
        (BATADV_MLA_MAX - ret.toNat) al).1 < 0 := by
      rcases hfail with hf | hf
      · exact absurd hf h1
      · exact hf
    rcases hb : batadv_mcast_mla_bridge_collect br lst
        (BATADV_MLA_MAX - ret.toNat) al with ⟨ret2, lst2, al2⟩
    rw [hb] at hf
    exact tt_update_bridge_fail bat dev master br alloc ret lst al ret2 lst2 al2
      ha hl h1 hb hf

/-- C1 witness: with one announced address and an oracle that fails the
first allocation, the local collector fails and the cycle changes
nothing. -/
theorem mla_update_alloc_failure_preserves_state_witness :
    (batadv_mcast_mla_local_collect devDup none [] BATADV_MLA_MAX [false]).1 < 0
    ∧ batadv_mcast_mla_tt_update ⟨[macA], true⟩ (some devDup) none [] [false]
        = (⟨[macA], true⟩, []) :=
  ⟨by decide,
   mla_update_alloc_failure_preserves_state ⟨[macA], true⟩ devDup none [] [false]
     rfl (Or.inl (by decide))⟩

/-- C5: with multicast optimization disabled (and a primary interface
selected) the cycle reconciles against an empty candidate list — the
announced list becomes empty and every previously announced address gets
a TT remove; with no primary interface the whole cycle aborts with no
TT mutation and the announced list unchanged. -/
theorem mla_disabled_clears_no_primary_aborts (bat : BatPriv) (dev : NetDevice)
    (master : Option NetDevice) (br : List BrIp) (alloc : List Bool) :
    (bat.mcast_group_awareness = false →
      batadv_mcast_mla_tt_update bat (some dev) master br alloc
        = ({ mla_list := [], mcast_group_awareness := false },
           bat.mla_list.map TTOp.remove))
    ∧ batadv_mcast_mla_tt_update bat none master br alloc = (bat, []) := by
  constructor
  · intro h
    rw [tt_update_disabled bat dev master br alloc h, h]
  · exact tt_update_none bat master br alloc

/-- C5 witness: instantiation at an announced set of one address, with
optimization disabled, and at a state with no primary interface. -/
theorem mla_disabled_clears_no_primary_aborts_witness :
    batadv_mcast_mla_tt_update ⟨[macA], false⟩ (some devDup) none [] []
      = (⟨[], false⟩, [TTOp.remove macA])
    ∧ batadv_mcast_mla_tt_update ⟨[macA], false⟩ none none [] []
      = (⟨[macA], false⟩, []) :=
  ⟨(mla_disabled_clears_no_primary_aborts ⟨[macA], false⟩ devDup none [] []).1 rfl,
   (mla_disabled_clears_no_primary_aborts ⟨[macA], false⟩ devDup none [] []).2⟩

/-- C4: the local collector keeps at most its budget (so at most
BATADV_MLA_MAX = 255 entries), the bridge collector's budget is
BATADV_MLA_MAX minus the local count so the combined candidate list
never exceeds 255 entries, and across a cycle a duplicate-free announced
list of at most 255 entries stays at most 255 entries (and stays
duplicate-free). -/
theorem mla_capacity_bound (bat : BatPriv) (primary master : Option NetDevice)
    (br : List BrIp) (alloc : List Bool) (dev : NetDevice)
    (h1 : bat.mla_list.Nodup) (h2 : bat.mla_list.length ≤ BATADV_MLA_MAX) :
    (∀ n l a,
      batadv_mcast_mla_local_collect dev master [] BATADV_MLA_MAX alloc
        = (Int.ofNat n, l, a) →
      n ≤ BATADV_MLA_MAX ∧ l.length = n
      ∧ ∀ n2 l2 a2,
          batadv_mcast_mla_bridge_collect br l (BATADV_MLA_MAX - n) a
            = (Int.ofNat n2, l2, a2) →
          l2.length ≤ BATADV_MLA_MAX)
    ∧ (batadv_mcast_mla_tt_update bat primary master br alloc).1.mla_list.length
        ≤ BATADV_MLA_MAX
    ∧ (batadv_mcast_mla_tt_update bat primary master br alloc).1.mla_list.Nodup := by
  constructor
  · intro n l a hleq
    have hs := local_collect_success_spec dev master [] BATADV_MLA_MAX alloc n l a hleq
    have hlen : l.length = n := by simpa using hs.2
    refine ⟨hs.1, hlen, ?_⟩
    intro n2 l2 a2 hb2
    have hs2 := bridge_collect_success_spec br l (BATADV_MLA_MAX - n) a n2 l2 a2 hb2
    have hn : n ≤ BATADV_MLA_MAX := hs.1
    have hn2 : n2 ≤ BATADV_MLA_MAX - n := hs2.1
    have hl2 : l2.length = l.length + n2 := hs2.2
    omega
  · cases primary with
    | none =>
      rw [tt_update_none bat master br alloc]
      exact ⟨h2, h1⟩
    | some dev2 =>
      cases ha : bat.mcast_group_awareness with
      | false =>
        rw [tt_update_disabled bat dev2 master br alloc ha]
        constructor
        · simp [BATADV_MLA_MAX]
        · simp
      | true =>
        rcases hl : batadv_mcast_mla_local_collect dev2 master []
            BATADV_MLA_MAX alloc with ⟨ret, lst, al⟩
        by_cases hr1 : ret < 0
        · rw [tt_update_local_fail bat dev2 master br alloc ret lst al ha hl hr1]
          exact ⟨h2, h1⟩
        · rcases hb : batadv_mcast_mla_bridge_collect br lst
              (BATADV_MLA_MAX - ret.toNat) al with ⟨ret2, lst2, al2⟩
          by_cases hr2 : ret2 < 0
          · rw [tt_update_bridge_fail bat dev2 master br alloc ret lst al
              ret2 lst2 al2 ha hl hr1 hb hr2]
            exact ⟨h2, h1⟩
          · rw [tt_update_success bat dev2 master br alloc ret lst al
              ret2 lst2 al2 ha hl hr1 hb hr2]
            dsimp only
            have hcast : ret = Int.ofNat ret.toNat := by
              cases ret with
              | ofNat n => rfl
              | negSucc n => exact absurd (Int.negSucc_lt_zero n) hr1
            have hcast2 : ret2 = Int.ofNat ret2.toNat := by
              cases ret2 with
              | ofNat n => rfl
              | negSucc n => exact absurd (Int.negSucc_lt_zero n) hr2
            rw [hcast] at hl
            rw [hcast2] at hb
            have hs := local_collect_success_spec dev2 master []
              BATADV_MLA_MAX alloc ret.toNat lst al hl
            have hs2 := bridge_collect_success_spec br lst
              (BATADV_MLA_MAX - ret.toNat) al ret2.toNat lst2 al2 hb
            have hlst : lst.length = ret.toNat := by simpa using hs.2
            have hbound : lst2.length ≤ BATADV_MLA_MAX := by
              have e1 := hs.1
              have e2 := hs2.1
              have e3 := hs2.2
              omega
            constructor
            · exact le_trans (reconcile_length_le bat.mla_list lst2 h1) hbound
            · exact reconcile_nodup bat.mla_list lst2 h1

/-- C4 witness: instantiation with an empty announced set, a selected
primary interface, and an always-succeeding allocation oracle. -/
theorem mla_capacity_bound_witness :
    ([] : List Mac).Nodup ∧ ([] : List Mac).length ≤ BATADV_MLA_MAX
    ∧ (batadv_mcast_mla_tt_update ⟨[], true⟩ (some devDup) none []
        []).1.mla_list.length ≤ BATADV_MLA_MAX :=
  ⟨by decide, by decide,
   (mla_capacity_bound ⟨[], true⟩ (some devDup) none [] [] devDup
     (by decide) (by decide)).2.1⟩

/-- C6 counterexample: on a device with two announceable addresses and
an oracle whose second allocation fails, the local collector returns the
error yet the entry collected so far is still in the caller's list — a
partial candidate list does escape the failed call. -/
theorem mla_local_collect_partial_escape_cex :
    (batadv_mcast_mla_local_collect devDup none [] 255 [true, false]).1 < 0
    ∧ (batadv_mcast_mla_local_collect devDup none [] 255 [true, false]).2.1
        = [macA]
    ∧ (batadv_mcast_mla_local_collect devDup none [] 255 [true, false]).2.1
        ≠ [] := by
  decide

/-- C6 amended: on allocation failure the local collector returns the
error immediately with the entries collected so far still in the
caller-owned list; the caller batadv_mcast_mla_tt_update then aborts the
cycle and discards that list, so no partial candidate list is ever
reconciled. -/
theorem mla_local_collect_failure_cycle_discards (bat : BatPriv)
    (dev : NetDevice) (master : Option NetDevice) (br : List BrIp)
    (alloc : List Bool)
    (ha : bat.mcast_group_awareness = true)
    (hf : (batadv_mcast_mla_local_collect dev master [] BATADV_MLA_MAX alloc).1
            < 0) :
    batadv_mcast_mla_tt_update bat (some dev) master br alloc = (bat, []) := by
  rcases hl : batadv_mcast_mla_local_collect dev master [] BATADV_MLA_MAX alloc
    with ⟨ret, lst, al⟩
  rw [hl] at hf
  exact tt_update_local_fail bat dev master br alloc ret lst al ha hl hf

/-- C6 amended witness: the failing collection of the counterexample
aborts the cycle with the announced set untouched. -/
theorem mla_local_collect_failure_cycle_discards_witness :
    (batadv_mcast_mla_local_collect devDup none [] BATADV_MLA_MAX
      [true, false]).1 < 0
    ∧ batadv_mcast_mla_tt_update ⟨[macA], true⟩ (some devDup) none []
        [true, false] = (⟨[macA], true⟩, []) :=
  ⟨by decide,
   mla_local_collect_failure_cycle_discards ⟨[macA], true⟩ devDup none []
     [true, false] rfl (by decide)⟩

/-- C7 counterexample: on a snoop result with two fresh entries and an
oracle whose second allocation fails, the bridge collector returns the
error yet the entry it had already added is still in the caller's list —
its contribution is not removed before failing. -/
theorem mla_bridge_collect_partial_escape_cex :
    (batadv_mcast_mla_bridge_collect [brE1, brE2] [] 255 [true, false]).1 < 0
    ∧ (batadv_mcast_mla_bridge_collect [brE1, brE2] [] 255 [true, false]).2.1
        = [⟨0x01, 0x00, 0x5e, 1, 2, 3⟩]
    ∧ (batadv_mcast_mla_bridge_collect [brE1, brE2] [] 255 [true, false]).2.1
        ≠ [] := by
  decide

/-- C7 amended: on allocation failure the bridge collector frees only
the temporary fetch results and fails; the entries it had already added
remain in the caller-owned list, and the caller
batadv_mcast_mla_tt_update aborts the cycle and discards them, so the
cycle as a whole contributes nothing. -/
theorem mla_bridge_collect_failure_cycle_discards (bat : BatPriv)
    (dev : NetDevice) (master : Option NetDevice) (br : List BrIp)
    (alloc : List Bool)
    (ha : bat.mcast_group_awareness = true)
    (h1 : ¬ (batadv_mcast_mla_local_collect dev master []
              BATADV_MLA_MAX alloc).1 < 0)
    (h2 : (batadv_mcast_mla_bridge_collect br
            (batadv_mcast_mla_local_collect dev master []
              BATADV_MLA_MAX alloc).2.1
            (BATADV_MLA_MAX
              - (batadv_mcast_mla_local_collect dev master []
                  BATADV_MLA_MAX alloc).1.toNat)
            (batadv_mcast_mla_local_collect dev master []
              BATADV_MLA_MAX alloc).2.2).1 < 0) :
    batadv_mcast_mla_tt_update bat (some dev) master br alloc = (bat, []) := by
  rcases hl : batadv_mcast_mla_local_collect dev master [] BATADV_MLA_MAX alloc
    with ⟨ret, lst, al⟩
  rw [hl] at h1 h2
  rcases hb : batadv_mcast_mla_bridge_collect br lst
      (BATADV_MLA_MAX - ret.toNat) al with ⟨ret2, lst2, al2⟩
  rw [hb] at h2
  exact tt_update_bridge_fail bat dev master br alloc ret lst al ret2 lst2 al2
    ha hl h1 hb h2

/-- C7 amended witness: local collection succeeds with two entries, the
bridge allocation fails, and the cycle aborts with nothing changed. -/
theorem mla_bridge_collect_failure_cycle_discards_witness :
    ¬ (batadv_mcast_mla_local_collect devDup none [] BATADV_MLA_MAX
        [true, true, false]).1 < 0
    ∧ batadv_mcast_mla_tt_update ⟨[macA], true⟩ (some devDup) none [brE1]
        [true, true, false] = (⟨[macA], true⟩, []) :=
  ⟨by decide,
   mla_bridge_collect_failure_cycle_discards ⟨[macA], true⟩ devDup none [brE1]
     [true, true, false] rfl (by decide) (by decide)⟩

/-- C8 counterexample: a snoop entry with an unrecognized protocol
family is converted to the all-zero MAC, yet it does enter the candidate
list and the reconciler does issue a TT add for it. -/
theorem mla_unknown_proto_enters_candidate_cex :
    batadv_mcast_mla_br_addr_cpy brEU = zeroMac
    ∧ (batadv_mcast_mla_bridge_collect [brEU] [] 255 []).2.1 = [zeroMac]
    ∧ (batadv_mcast_reconcile [] [zeroMac]).2.2 = [TTOp.add zeroMac] := by
  decide

/-- C8 amended: every bridge-snooped entry whose protocol family is
neither IPv4 nor IPv6 is converted to the all-zero MAC address, which
never matches the classifier's address forms; it is not filtered out by
the bridge collector, however — unless already present it enters the
candidate list like any other entry. -/
theorem mla_unknown_proto_zero_mac (e : BrIp) (dev : NetDevice)
    (h1 : e.proto ≠ ETH_P_IP) (h2 : e.proto ≠ ETH_P_IPV6) :
    batadv_mcast_mla_br_addr_cpy e = zeroMac
    ∧ batadv_mcast_mla_has_unspecial_addr (batadv_mcast_mla_br_addr_cpy e) dev
        = false
    ∧ ∀ num_mla_max, 1 ≤ num_mla_max →
        (batadv_mcast_mla_bridge_collect [e] [] num_mla_max []).2.1
          = [zeroMac] := by
  have hcpy : batadv_mcast_mla_br_addr_cpy e = zeroMac := by
    simp [batadv_mcast_mla_br_addr_cpy, h1, h2]
  refine ⟨hcpy, ?_, ?_⟩
  · rw [hcpy]
    rfl
  · intro m hm
    have hc : ¬ m ≤ 0 := by omega
    simp [batadv_mcast_mla_bridge_collect, bridgeCollectGo, hcpy, hc,
      batadv_mcast_mla_is_duplicate, kmalloc]

/-- C8 amended witness: instantiation at the unknown-family entry and a
concrete device. -/
theorem mla_unknown_proto_zero_mac_witness :
    brEU.proto ≠ ETH_P_IP ∧ brEU.proto ≠ ETH_P_IPV6
    ∧ batadv_mcast_mla_br_addr_cpy brEU = zeroMac
    ∧ batadv_mcast_mla_has_unspecial_addr (batadv_mcast_mla_br_addr_cpy brEU)
        devDup = false
    ∧ ∀ num_mla_max, 1 ≤ num_mla_max →
        (batadv_mcast_mla_bridge_collect [brEU] [] num_mla_max []).2.1
          = [zeroMac] := by
  refine ⟨by decide, by decide, ?_⟩
  exact mla_unknown_proto_zero_mac brEU devDup (by decide) (by decide)

/-- C10 counterexample: the local collector performs no duplicate check,
so a device listing the same announceable address twice yields a
candidate list with two equal entries. -/
theorem mla_local_collect_duplicate_cex :
    (batadv_mcast_mla_local_collect devDup none [] 255 []).2.1 = [macA, macA]
    ∧ ¬ (batadv_mcast_mla_local_collect devDup none [] 255 []).2.1.Nodup := by
  decide

/-- C10 amended: the local collector's output is duplicate-free whenever
the effective device's hardware multicast list is (the kernel guarantees
this for `dev->mc`); the bridge collector and the reconciler's add step
check duplicates explicitly and preserve a duplicate-free list
unconditionally. -/
theorem mla_nodup_preservation :
    (∀ (dev : NetDevice) (master : Option NetDevice) (num_mla_max : Nat)
        (alloc : List Bool),
      (master.getD dev).mc.Nodup →
      (batadv_mcast_mla_local_collect dev master [] num_mla_max
        alloc).2.1.Nodup)
    ∧ (∀ (br : List BrIp) (mcast_list : List Mac) (num_mla_max : Nat)
        (alloc : List Bool),
      mcast_list.Nodup →
      (batadv_mcast_mla_bridge_collect br mcast_list num_mla_max
        alloc).2.1.Nodup)
    ∧ (∀ mla_list mcast_list : List Mac, mla_list.Nodup →
      (batadv_mcast_reconcile mla_list mcast_list).1.Nodup) := by
  refine ⟨?_, ?_, ?_⟩
  · intro dev master max alloc hsrc
    exact local_collect_nodup dev master [] max alloc hsrc List.nodup_nil
      (by simp)
  · intro br lst max alloc h
    exact bridge_collect_nodup br lst max alloc h
  · intro mla cand h
    exact reconcile_nodup mla cand h

/-- C10 amended witness: concrete instantiations of the three
duplicate-freeness preservation statements. -/
theorem mla_nodup_preservation_witness :
    devEmpty.mc.Nodup
    ∧ (batadv_mcast_mla_local_collect devEmpty none [] 255 []).2.1.Nodup
    ∧ ([macA] : List Mac).Nodup
    ∧ (batadv_mcast_mla_bridge_collect [brE1] [macA] 255 []).2.1.Nodup
    ∧ (batadv_mcast_reconcile [macA] [zeroMac]).1.Nodup :=
  ⟨by decide, mla_nodup_preservation.1 devEmpty none 255 [] (by decide),
   by decide, mla_nodup_preservation.2.1 [brE1] [macA] 255 [] (by decide),
   mla_nodup_preservation.2.2 [macA] [zeroMac] (by decide)⟩
